import Mathlib

/-!
Verification of the baquet watchlist / directory-cache core.

The definitions below are a shallow embedding of the Python sources:
  src/baquet/watchlist.py   (class Watchlist, module-level helpers)
  src/baquet/sql/watchlist.py (row types WatchlistSQL, UserSubListSQL, SubListSQL)
  src/baquet/user.py        (hydrate_user_identifiers, class Directory)
  src/baquet/directory.py   (the refactored Directory variant)

SQLite tables are modelled as Lean lists in row (insertion) order, which is the
order an unordered SELECT returns and hence the order `.first()` inspects.
`session.merge` on a row type with primary key k is modelled as an in-place
update when a row with key k exists and an append otherwise.  Timestamps are
integers.  The remote service (tweepy api) is a function parameter.
-/

namespace Baquet

/-- BaquetConstants.SUBLIST_TYPE_SELF from src/baquet/constants.py. -/
def SUBLIST_TYPE_SELF : Nat := 1

/-- Row of the user_sublists table (UserSubListSQL in src/baquet/sql/watchlist.py):
composite primary key (user_id, sublist_id) plus the locally_excluded flag. -/
structure UserSubListSQL where
  user_id : String
  sublist_id : Nat
  locally_excluded : Bool
deriving DecidableEq

/-- Row of the sublists table (SubListSQL in src/baquet/sql/watchlist.py). -/
structure SubListSQL where
  sublist_id : Nat
  sublist_type_id : Nat
  name : String
  external_id : Option String
deriving DecidableEq

/-- State of one watchlist database.  A WatchlistSQL row carries many profile
columns, but every claim only depends on which user_id rows exist, so the
watchlist table is modelled by its list of primary keys. -/
structure WatchlistDB where
  watchlist : List String
  memberships : List UserSubListSQL
  sublists : List SubListSQL
deriving DecidableEq

/-- session.merge of a WatchlistSQL row holding only the primary key: creates
the row if absent, otherwise leaves the existing row in place. -/
def mergeWatchRow (wl : List String) (u : String) : List String :=
  if wl.contains u then wl else wl ++ [u]

/-- session.merge of a UserSubListSQL row: update in place when the composite
key (user_id, sublist_id) exists, append otherwise. -/
def upsertMembership (mem : List UserSubListSQL) (u : String) (sid : Nat)
    (le : Bool) : List UserSubListSQL :=
  if mem.any (fun m => m.user_id == u && m.sublist_id == sid) then
    mem.map (fun m =>
      if m.user_id == u && m.sublist_id == sid then
        { user_id := u, sublist_id := sid, locally_excluded := le }
      else m)
  else mem ++ [{ user_id := u, sublist_id := sid, locally_excluded := le }]

/-- One iteration of the loop in Watchlist.add_watchlist
(src/baquet/watchlist.py lines 169-187).  The previous-membership query is
written in the source as
  filter(UserSubListSQL.user_id == u  and  UserSubListSQL.sublist_id == sid)
with the Python `and` operator: the left SQLAlchemy expression is falsy
(BinaryExpression.__bool__ compares operand hashes), so `and` yields the left
operand and the emitted filter is the user_id comparison alone.  `.first()`
therefore returns the first membership row of that user in ANY sublist. -/
def addOne (sid : Nat) (s : WatchlistDB) (u : String) : WatchlistDB :=
  let wl := mergeWatchRow s.watchlist u
  let prev := s.memberships.find? (fun m => m.user_id == u)
  let le := match prev with
    | some m => m.locally_excluded
    | none => false
  { watchlist := wl
    memberships := upsertMembership s.memberships u sid le
    sublists := s.sublists }

/-- Watchlist.add_watchlist (src/baquet/watchlist.py lines 160-187):
merge a watchlist row and a membership row for every user in the list. -/
def add_watchlist (users : List String) (sid : Nat) (s : WatchlistDB) : WatchlistDB :=
  users.foldl (addOne sid) s

/-- Watchlist.clear_watchlist (lines 189-194): a bulk
`session.query(WatchlistSQL).delete()`, which deletes watchlist rows only;
bulk deletes bypass ORM cascades and the user_sublists table is untouched. -/
def clear_watchlist (s : WatchlistDB) : WatchlistDB :=
  { s with watchlist := [] }

/-- Watchlist.remove_watchlist (lines 413-420): an ORM-level session.delete
of the user's watchlist row.  WatchlistSQL.sublists is a relationship with
no delete cascade whose child foreign key (user_sublists.user_id) is part of
the child primary key, so when the user still has membership rows the flush
raises (the dependency rule cannot blank out a primary key column) and the
session context manager rolls back, leaving the state unchanged; only a user
with no membership rows has the row deleted, and no statement ever touches
the user_sublists table. -/
def remove_watchlist (u : String) (s : WatchlistDB) : WatchlistDB :=
  if s.memberships.any (fun m => m.user_id == u) then s
  else { s with watchlist := s.watchlist.filter (fun v => !(v == u)) }

/-- The orphan-cleanup query used by _import_list and remove_sublist:
watchlist rows outer-joined to their memberships and filtered to those with
none are bulk deleted, keeping exactly the users that still have at least one
membership row. -/
def deleteOrphans (s : WatchlistDB) : WatchlistDB :=
  { s with watchlist :=
      s.watchlist.filter (fun u => s.memberships.any (fun m => m.user_id == u)) }

/-- Largest allocated sublist primary key; a fresh SQLite integer primary key
is one more than this. -/
def maxSublistId (l : List SubListSQL) : Nat :=
  l.foldl (fun a r => max a r.sublist_id) 0

/-- Watchlist._import_list (src/baquet/watchlist.py lines 258-300).
If no sublist has the external id, a sublist row is created and the users are
added to it.  Otherwise the non-locally-excluded membership rows of that
sublist are bulk deleted, orphaned watchlist rows are bulk deleted, and the
users of the freshly fetched list are added via add_watchlist. -/
def importList (ext : String) (nm : String) (tid : Nat)
    (users : List String) (s : WatchlistDB) : WatchlistDB :=
  match s.sublists.find? (fun r => r.external_id == some ext) with
  | none =>
      let newId := maxSublistId s.sublists + 1
      let s1 := { s with sublists :=
        s.sublists ++ [{ sublist_id := newId, sublist_type_id := tid
                         name := nm, external_id := some ext }] }
      add_watchlist users newId s1
  | some cur =>
      let s1 := { s with memberships :=
        s.memberships.filter (fun m =>
          !(m.sublist_id == cur.sublist_id && !m.locally_excluded)) }
      let s2 := deleteOrphans s1
      add_watchlist users cur.sublist_id s2

/-- Watchlist.remove_sublist (src/baquet/watchlist.py lines 365-392):
delete the sublist row unless it is the protected self sublist, delete all of
its membership rows, then delete orphaned watchlist rows. -/
def remove_sublist (sid : Nat) (s : WatchlistDB) : WatchlistDB :=
  let sublists :=
    if sid ≠ SUBLIST_TYPE_SELF then
      s.sublists.filter (fun r => !(r.sublist_id == sid))
    else s.sublists
  let memberships := s.memberships.filter (fun m => !(m.sublist_id == sid))
  deleteOrphans { watchlist := s.watchlist, memberships := memberships
                  sublists := sublists }

/-- Update of the row found by the query in
Watchlist.set_user_sublist_exclusion_status: the first row whose user_id
matches gets its locally_excluded attribute assigned; nothing else changes. -/
def setFirstUserRow (u : String) (e : Bool) :
    List UserSubListSQL → List UserSubListSQL
  | [] => []
  | m :: rest =>
    if m.user_id == u then { m with locally_excluded := e } :: rest
    else m :: setFirstUserRow u e rest

/-- Watchlist.set_user_sublist_exclusion_status (lines 330-338).  As in
addOne, the filter is written with the Python `and` operator, so only the
user_id comparison reaches the query and `.first()` is the first membership
row of that user in any sublist; the sublist_id argument never reaches the
store.  (With no matching row the source raises before committing, leaving
the state unchanged, as does the [] case here.) -/
def set_user_sublist_exclusion_status (u : String) (_sublist_id : Nat)
    (e : Bool) (s : WatchlistDB) : WatchlistDB :=
  { s with memberships := setFirstUserRow u e s.memberships }

/-- The referential invariant of claim C2: a watchlist row exists if and only
if at least one membership row references its user_id. -/
def watchInv (s : WatchlistDB) : Prop :=
  ∀ u : String, u ∈ s.watchlist ↔ ∃ m ∈ s.memberships, m.user_id = u

/-- Executable form of watchInv. -/
def watchInvB (s : WatchlistDB) : Bool :=
  s.watchlist.all (fun u => s.memberships.any (fun m => m.user_id == u)) &&
  s.memberships.all (fun m => s.watchlist.contains m.user_id)

theorem watchInv_iff (s : WatchlistDB) : watchInv s ↔ watchInvB s = true := by
  unfold watchInv watchInvB
  simp only [Bool.and_eq_true, List.all_eq_true, List.any_eq_true,
    List.contains_iff_exists_mem_beq, beq_iff_eq]
  constructor
  · intro h
    refine ⟨fun u hu => ?_, fun m hm => ?_⟩
    · obtain ⟨m, hm, hid⟩ := (h u).mp hu
      exact ⟨m, hm, hid⟩
    · exact ⟨m.user_id, (h m.user_id).mpr ⟨m, hm, rfl⟩, rfl⟩
  · rintro ⟨h1, h2⟩ u
    constructor
    · intro hu
      obtain ⟨m, hm, hid⟩ := h1 u hu
      exact ⟨m, hm, hid⟩
    · rintro ⟨m, hm, rfl⟩
      obtain ⟨v, hv, hvu⟩ := h2 m hm
      exact hvu ▸ hv

instance (s : WatchlistDB) : Decidable (watchInv s) :=
  decidable_of_iff _ (watchInv_iff s).symm

/-- Rows of a user other than the merged one are untouched by a membership
upsert. -/
theorem mem_upsertMembership_of_user_ne {mem : List UserSubListSQL}
    {u : String} {sid : Nat} {le : Bool} {m : UserSubListSQL}
    (h : m.user_id ≠ u) :
    m ∈ upsertMembership mem u sid le ↔ m ∈ mem := by
  unfold upsertMembership
  split
  · simp only [List.mem_map]
    constructor
    · rintro ⟨m0, hm0, hf⟩
      by_cases hk : (m0.user_id == u && m0.sublist_id == sid) = true
      · rw [if_pos hk] at hf
        exact absurd (congrArg UserSubListSQL.user_id hf.symm) h
      · rw [if_neg hk] at hf
        exact hf ▸ hm0
    · intro hm
      refine ⟨m, hm, ?_⟩
      rw [if_neg ?_]
      simp only [Bool.and_eq_true, beq_iff_eq, not_and]
      intro hu
      exact absurd hu h
  · simp only [List.mem_append, List.mem_singleton]
    constructor
    · rintro (hm | rfl)
      · exact hm
      · exact absurd rfl h
    · exact Or.inl

/-- The merged membership row is present after an upsert. -/
theorem upserted_mem_upsertMembership (mem : List UserSubListSQL)
    (u : String) (sid : Nat) (le : Bool) :
    ({ user_id := u, sublist_id := sid, locally_excluded := le } : UserSubListSQL)
      ∈ upsertMembership mem u sid le := by
  unfold upsertMembership
  split
  · next hany =>
    simp only [List.any_eq_true, Bool.and_eq_true, beq_iff_eq] at hany
    obtain ⟨m0, hm0, hu, hs⟩ := hany
    simp only [List.mem_map]
    refine ⟨m0, hm0, ?_⟩
    rw [if_pos]
    simp [hu, hs]
  · simp

/-- Membership rows of a user are the same before and after an upsert for a
different user. -/
theorem exists_user_upsertMembership {mem : List UserSubListSQL}
    {u v : String} {sid : Nat} {le : Bool} (h : v ≠ u) :
    (∃ m ∈ upsertMembership mem u sid le, m.user_id = v) ↔
      (∃ m ∈ mem, m.user_id = v) := by
  constructor
  · rintro ⟨m, hm, rfl⟩
    exact ⟨m, (mem_upsertMembership_of_user_ne h).mp hm, rfl⟩
  · rintro ⟨m, hm, rfl⟩
    exact ⟨m, (mem_upsertMembership_of_user_ne h).mpr hm, rfl⟩

/-- addOne keeps the referential invariant of claim C2. -/
theorem watchInv_addOne {s : WatchlistDB} (hs : watchInv s) (sid : Nat)
    (u : String) : watchInv (addOne sid s u) := by
  intro v
  unfold addOne mergeWatchRow
  simp only
  by_cases hv : v = u
  · subst hv
    constructor
    · intro _
      exact ⟨_, upserted_mem_upsertMembership s.memberships v sid _, rfl⟩
    · intro _
      split
      · next hc =>
        simpa [List.contains_iff_exists_mem_beq] using hc
      · simp
  · have hwl : (v ∈ if s.watchlist.contains u then s.watchlist
        else s.watchlist ++ [u]) ↔ v ∈ s.watchlist := by
      split
      · exact Iff.rfl
      · simp [hv]
    rw [hwl, hs v, exists_user_upsertMembership hv]

/-- add_watchlist keeps the referential invariant of claim C2. -/
theorem watchInv_add_watchlist {s : WatchlistDB} (hs : watchInv s)
    (users : List String) (sid : Nat) : watchInv (add_watchlist users sid s) := by
  induction users generalizing s with
  | nil => exact hs
  | cons u rest ih => exact ih (watchInv_addOne hs sid u)

/-- Orphan cleanup restores the referential invariant after membership rows
have been deleted. -/
theorem watchInv_deleteOrphans_filter {wl : List String}
    {mem mem0 : List UserSubListSQL} {subs subs0 : List SubListSQL}
    (hs : watchInv { watchlist := wl, memberships := mem0, sublists := subs0 })
    (hsub : ∀ m ∈ mem, m ∈ mem0) :
    watchInv (deleteOrphans { watchlist := wl, memberships := mem, sublists := subs }) := by
  intro v
  unfold deleteOrphans
  simp only [List.mem_filter, List.any_eq_true, beq_iff_eq]
  constructor
  · rintro ⟨_, m, hm, hid⟩
    exact ⟨m, hm, hid⟩
  · rintro ⟨m, hm, rfl⟩
    exact ⟨(hs m.user_id).mpr ⟨m, hsub m hm, rfl⟩, m, hm, rfl⟩

/-- importList keeps the referential invariant of claim C2. -/
theorem watchInv_importList {s : WatchlistDB} (hs : watchInv s)
    (ext nm : String) (tid : Nat) (users : List String) :
    watchInv (importList ext nm tid users s) := by
  unfold importList
  split
  · apply watchInv_add_watchlist
    intro v
    exact hs v
  · apply watchInv_add_watchlist
    refine watchInv_deleteOrphans_filter (fun v => hs v) ?_
    intro m hm
    exact (List.mem_filter.mp hm).1

/-- remove_sublist keeps the referential invariant of claim C2. -/
theorem watchInv_remove_sublist {s : WatchlistDB} (hs : watchInv s)
    (sid : Nat) : watchInv (remove_sublist sid s) := by
  unfold remove_sublist
  refine watchInv_deleteOrphans_filter (fun v => hs v) ?_
  intro m hm
  exact (List.mem_filter.mp hm).1

/-- remove_watchlist keeps the referential invariant of claim C2: with
membership rows present the flush fails and rolls back (state unchanged),
and without them the deleted row was not referenced. -/
theorem watchInv_remove_watchlist {s : WatchlistDB} (hs : watchInv s)
    (u : String) : watchInv (remove_watchlist u s) := by
  unfold remove_watchlist
  split
  · exact hs
  · next hnone =>
    intro v
    simp only [List.mem_filter, Bool.not_eq_true', beq_eq_false_iff_ne, ne_eq]
    constructor
    · rintro ⟨hv, _⟩
      exact (hs v).mp hv
    · intro hex
      refine ⟨(hs v).mpr hex, ?_⟩
      intro hveq
      subst hveq
      obtain ⟨m, hm, hmu⟩ := hex
      exact hnone (List.any_eq_true.mpr ⟨m, hm, by simp [hmu]⟩)

/-- C2, counterexample: the claim quantifies over clear_watchlist as well, but
clear_watchlist bulk deletes the watchlist rows and leaves every membership
row behind, so a membership row can reference a user with no watchlist row.
Starting from a state satisfying the invariant (user x on the watchlist with
one membership), the state after clear_watchlist violates it. -/
theorem clear_watchlist_breaks_invariant :
    ¬ watchInv (clear_watchlist
      { watchlist := ["x"]
        memberships := [{ user_id := "x", sublist_id := 1, locally_excluded := false }]
        sublists := [{ sublist_id := 1, sublist_type_id := 1, name := "self",
                       external_id := none }] }) := by
  decide

/-- C2, amended: the referential invariant (a WatchlistSQL row exists iff at
least one UserSubListSQL row references its user_id) is preserved by
add_watchlist, _import_list, remove_sublist and remove_watchlist (the last
because deleting a user who still has membership rows fails at flush and
rolls back); clear_watchlist deletes all watchlist rows while leaving every
membership row behind and breaks it. -/
theorem reconciler_preserves_watch_invariant (s : WatchlistDB)
    (hs : watchInv s) (users : List String) (sid : Nat) (ext nm : String)
    (tid sid2 : Nat) (u2 : String) :
    watchInv (add_watchlist users sid s) ∧
    watchInv (importList ext nm tid users s) ∧
    watchInv (remove_sublist sid2 s) ∧
    watchInv (remove_watchlist u2 s) :=
  ⟨watchInv_add_watchlist hs users sid,
   watchInv_importList hs ext nm tid users,
   watchInv_remove_sublist hs sid2,
   watchInv_remove_watchlist hs u2⟩

/-- C2, witness for the amended theorem at a concrete state. -/
theorem reconciler_preserves_watch_invariant_witness :
    watchInv (add_watchlist ["y"] 1
      { watchlist := ["x"]
        memberships := [{ user_id := "x", sublist_id := 1, locally_excluded := false }]
        sublists := [{ sublist_id := 1, sublist_type_id := 1, name := "self",
                       external_id := none }] }) ∧
    watchInv (importList "e" "l" 3 ["y"]
      { watchlist := ["x"]
        memberships := [{ user_id := "x", sublist_id := 1, locally_excluded := false }]
        sublists := [{ sublist_id := 1, sublist_type_id := 1, name := "self",
                       external_id := none }] }) ∧
    watchInv (remove_sublist 2
      { watchlist := ["x"]
        memberships := [{ user_id := "x", sublist_id := 1, locally_excluded := false }]
        sublists := [{ sublist_id := 1, sublist_type_id := 1, name := "self",
                       external_id := none }] }) ∧
    watchInv (remove_watchlist "x"
      { watchlist := ["x"]
        memberships := [{ user_id := "x", sublist_id := 1, locally_excluded := false }]
        sublists := [{ sublist_id := 1, sublist_type_id := 1, name := "self",
                       external_id := none }] }) :=
  reconciler_preserves_watch_invariant _ (by decide) ["y"] 1 "e" "l" 3 2 "x"

/-- When every membership row of user X equals mX, the user-only lookup of
addOne finds exactly mX. -/
theorem find?_user_eq {mem : List UserSubListSQL} {X : String}
    {mX : UserSubListSQL} (hX : mX.user_id = X)
    (hall : ∀ m ∈ mem, m.user_id = X → m = mX) (hmem : mX ∈ mem) :
    mem.find? (fun m => m.user_id == X) = some mX := by
  induction mem with
  | nil => cases hmem
  | cons m rest ih =>
    by_cases hm : m.user_id = X
    · have : m = mX := hall m (List.mem_cons_self m rest) hm
      subst this
      simp [List.find?, hm]
    · have hb : (m.user_id == X) = false := by simpa using hm
      rw [List.find?, hb]
      show List.find? (fun m => m.user_id == X) rest = some mX
      refine ih (fun m1 hm1 h1 => hall m1 (List.mem_cons_of_mem m hm1) h1) ?_
      rcases List.mem_cons.mp hmem with h | h
      · exact absurd (h ▸ hX) hm
      · exact h

/-- addOne keeps the fact that the membership rows of user X are exactly the
single excluded row of sublist sid. -/
theorem addOne_preserves_exclusion {s : WatchlistDB} {X : String} {sid : Nat}
    (hall : ∀ m ∈ s.memberships, m.user_id = X →
      m = { user_id := X, sublist_id := sid, locally_excluded := true })
    (hmem : ({ user_id := X, sublist_id := sid, locally_excluded := true } :
      UserSubListSQL) ∈ s.memberships) (u : String) :
    (∀ m ∈ (addOne sid s u).memberships, m.user_id = X →
      m = { user_id := X, sublist_id := sid, locally_excluded := true }) ∧
    ({ user_id := X, sublist_id := sid, locally_excluded := true } :
      UserSubListSQL) ∈ (addOne sid s u).memberships := by
  unfold addOne
  simp only
  by_cases hu : u = X
  · subst hu
    rw [find?_user_eq rfl hall hmem]
    simp only
    constructor
    · intro m hm hmX
      unfold upsertMembership at hm
      rw [if_pos (by
        simp only [List.any_eq_true, Bool.and_eq_true, beq_iff_eq]
        exact ⟨_, hmem, rfl, rfl⟩)] at hm
      simp only [List.mem_map] at hm
      obtain ⟨m0, hm0, hf⟩ := hm
      by_cases hk : (m0.user_id == u && m0.sublist_id == sid) = true
      · rw [if_pos hk] at hf
        exact hf.symm
      · rw [if_neg hk] at hf
        have h0 : m0.user_id = u := by rw [hf]; exact hmX
        exact hf ▸ hall m0 hm0 h0
    · exact upserted_mem_upsertMembership s.memberships u sid true
  · have hne : X ≠ u := fun h => hu h.symm
    constructor
    · intro m hm hmX
      have : m.user_id ≠ u := by rw [hmX]; exact hne
      exact hall m ((mem_upsertMembership_of_user_ne this).mp hm) hmX
    · exact (mem_upsertMembership_of_user_ne hne).mpr hmem

/-- add_watchlist keeps the single excluded membership row of user X in
sublist sid, whatever the imported user list contains. -/
theorem add_watchlist_preserves_exclusion {s : WatchlistDB} {X : String}
    {sid : Nat} (users : List String)
    (hall : ∀ m ∈ s.memberships, m.user_id = X →
      m = { user_id := X, sublist_id := sid, locally_excluded := true })
    (hmem : ({ user_id := X, sublist_id := sid, locally_excluded := true } :
      UserSubListSQL) ∈ s.memberships) :
    ({ user_id := X, sublist_id := sid, locally_excluded := true } :
      UserSubListSQL) ∈ (add_watchlist users sid s).memberships := by
  induction users generalizing s with
  | nil => exact hmem
  | cons u rest ih =>
    have h := addOne_preserves_exclusion hall hmem u
    exact ih h.1 h.2

/-- Membership rows of users that are not in the imported list are untouched
by add_watchlist. -/
theorem add_watchlist_preserves_other_users {m : UserSubListSQL}
    (users : List String) (sid : Nat) {s : WatchlistDB}
    (hm : m ∈ s.memberships) (hX : m.user_id ∉ users) :
    m ∈ (add_watchlist users sid s).memberships := by
  induction users generalizing s with
  | nil => exact hm
  | cons u rest ih =>
    have hne : m.user_id ≠ u := fun h => hX (h ▸ List.mem_cons_self u rest)
    exact ih ((mem_upsertMembership_of_user_ne hne).mpr hm)
      (fun h => hX (List.mem_cons_of_mem u h))

/-- C1, counterexample: user x has a locally excluded membership in sublist 2
(external id e); refreshing that sublist with an external list that no longer
contains x leaves the membership in place, because _import_list only deletes
the non-excluded membership rows of the sublist, while the claim says the
membership is deleted by the refresh. -/
theorem excluded_member_not_deleted_on_refresh :
    ({ user_id := "x", sublist_id := 2, locally_excluded := true } : UserSubListSQL)
      ∈ (importList "e" "l" 3 []
        { watchlist := ["x"]
          memberships := [{ user_id := "x", sublist_id := 2, locally_excluded := true }]
          sublists := [{ sublist_id := 1, sublist_type_id := 1, name := "self",
                         external_id := none },
                       { sublist_id := 2, sublist_type_id := 3, name := "l",
                         external_id := some "e" }] }).memberships := by
  decide

/-- C1, amended: refreshing sublist S (the sublist whose external_id matches
the imported list) keeps an excluded membership (X, S) in both cases.  If the
refreshed list no longer contains X, the membership is NOT deleted: it
survives because only non-excluded memberships of S are removed.  If the list
still contains X, the carried-forward flag is read from the first remaining
membership row of X in ANY sublist (the lookup filters on user_id alone), so
the excluded flag of (X, S) is preserved when the (X, S) row is the only
membership row of X; with memberships in other sublists the flag may be taken
from another pair. -/
theorem exclusion_survives_refresh_amended (s : WatchlistDB) (ext nm : String)
    (tid : Nat) (users : List String) (sub : SubListSQL) (X : String)
    (hfind : s.sublists.find? (fun r => r.external_id == some ext) = some sub) :
    (({ user_id := X, sublist_id := sub.sublist_id, locally_excluded := true } :
        UserSubListSQL) ∈ s.memberships → X ∉ users →
      ({ user_id := X, sublist_id := sub.sublist_id, locally_excluded := true } :
        UserSubListSQL) ∈ (importList ext nm tid users s).memberships) ∧
    ((∀ m ∈ s.memberships, m.user_id = X →
        m = { user_id := X, sublist_id := sub.sublist_id, locally_excluded := true }) →
      ({ user_id := X, sublist_id := sub.sublist_id, locally_excluded := true } :
        UserSubListSQL) ∈ s.memberships →
      ({ user_id := X, sublist_id := sub.sublist_id, locally_excluded := true } :
        UserSubListSQL) ∈ (importList ext nm tid users s).memberships) := by
  unfold importList
  rw [hfind]
  simp only
  constructor
  · intro hmem hX
    apply add_watchlist_preserves_other_users users sub.sublist_id ?_ hX
    show _ ∈ (deleteOrphans _).memberships
    unfold deleteOrphans
    simp only [List.mem_filter]
    refine ⟨hmem, ?_⟩
    simp
  · intro hall hmem
    apply add_watchlist_preserves_exclusion users
    · intro m hm hmX
      exact hall m (List.mem_filter.mp hm).1 hmX
    · show _ ∈ (deleteOrphans _).memberships
      unfold deleteOrphans
      simp only [List.mem_filter]
      refine ⟨hmem, ?_⟩
      simp

/-- C1, witness for the amended theorem: user x is excluded in sublist 2 and
still present in the refreshed list; the membership survives with the flag
intact. -/
theorem exclusion_survives_refresh_witness :
    ({ user_id := "x", sublist_id := 2, locally_excluded := true } : UserSubListSQL)
      ∈ (importList "e" "l" 3 ["x", "y"]
        { watchlist := ["x"]
          memberships := [{ user_id := "x", sublist_id := 2, locally_excluded := true }]
          sublists := [{ sublist_id := 1, sublist_type_id := 1, name := "self",
                         external_id := none },
                       { sublist_id := 2, sublist_type_id := 3, name := "l",
                         external_id := some "e" }] }).memberships :=
  (exclusion_survives_refresh_amended _ "e" "l" 3 ["x", "y"]
    { sublist_id := 2, sublist_type_id := 3, name := "l", external_id := some "e" }
    "x" (by decide)).2 (by decide) (by decide)

/-- C6: remove_sublist deletes the sublist row unless it is the protected
self sublist (which is never deleted), deletes all membership rows of the
sublist in either case, and keeps exactly the watchlist rows that still have
a membership in some other sublist. -/
theorem remove_sublist_spec (s : WatchlistDB) (sid : Nat) :
    (∀ r : SubListSQL, r ∈ (remove_sublist sid s).sublists ↔
      r ∈ s.sublists ∧ (sid = SUBLIST_TYPE_SELF ∨ r.sublist_id ≠ sid)) ∧
    (∀ r ∈ s.sublists, r.sublist_id = SUBLIST_TYPE_SELF →
      r ∈ (remove_sublist sid s).sublists) ∧
    (∀ m : UserSubListSQL, m ∈ (remove_sublist sid s).memberships ↔
      m ∈ s.memberships ∧ m.sublist_id ≠ sid) ∧
    (∀ u : String, u ∈ (remove_sublist sid s).watchlist ↔
      u ∈ s.watchlist ∧ ∃ m ∈ s.memberships, m.user_id = u ∧ m.sublist_id ≠ sid) := by
  have hsubs : ∀ r : SubListSQL, r ∈ (remove_sublist sid s).sublists ↔
      r ∈ s.sublists ∧ (sid = SUBLIST_TYPE_SELF ∨ r.sublist_id ≠ sid) := by
    intro r
    unfold remove_sublist deleteOrphans
    simp only
    by_cases h : sid = SUBLIST_TYPE_SELF
    · rw [if_neg (by simp [h])]
      simp [h]
    · rw [if_pos h]
      simp only [List.mem_filter, Bool.not_eq_true', beq_eq_false_iff_ne, ne_eq]
      constructor
      · rintro ⟨hr, hne⟩
        exact ⟨hr, Or.inr hne⟩
      · rintro ⟨hr, h2⟩
        rcases h2 with h2 | h2
        · exact absurd h2 h
        · exact ⟨hr, h2⟩
  refine ⟨hsubs, fun r hr hself => ?_, fun m => ?_, fun u => ?_⟩
  · refine (hsubs r).mpr ⟨hr, ?_⟩
    by_cases h : sid = SUBLIST_TYPE_SELF
    · exact Or.inl h
    · exact Or.inr (fun hc => h (hself ▸ hc.symm))
  · unfold remove_sublist deleteOrphans
    simp only [List.mem_filter, Bool.not_eq_true', beq_eq_false_iff_ne, ne_eq]
  · unfold remove_sublist deleteOrphans
    simp only [List.mem_filter, List.any_eq_true, Bool.not_eq_true',
      beq_eq_false_iff_ne, beq_iff_eq, ne_eq]
    constructor
    · rintro ⟨hu, m, ⟨hm, hside⟩, rfl⟩
      exact ⟨hu, m, hm, rfl, hside⟩
    · rintro ⟨hu, m, hm, rfl, hside⟩
      exact ⟨hu, m, ⟨hm, hside⟩, rfl⟩

/-- C10: evaluation of set_user_sublist_exclusion_status at the failing
input.  User u has membership rows in sublists 1 and 2 (in that row order);
the call names sublist 2, but the filter in the source drops the sublist_id
condition (Python `and` on column expressions), so the flag is set on the
first row of the user, the one of sublist 1, and the (u, 2) row is left
unchanged — contradicting the claim that exactly the (u, 2) row is modified. -/
theorem set_exclusion_modifies_first_row_of_user :
    set_user_sublist_exclusion_status "u" 2 true
      { watchlist := ["u"]
        memberships := [{ user_id := "u", sublist_id := 1, locally_excluded := false },
                        { user_id := "u", sublist_id := 2, locally_excluded := false }]
        sublists := [{ sublist_id := 1, sublist_type_id := 1, name := "self",
                       external_id := none },
                     { sublist_id := 2, sublist_type_id := 3, name := "l",
                       external_id := some "e" }] }
    = { watchlist := ["u"]
        memberships := [{ user_id := "u", sublist_id := 1, locally_excluded := true },
                        { user_id := "u", sublist_id := 2, locally_excluded := false }]
        sublists := [{ sublist_id := 1, sublist_type_id := 1, name := "self",
                       external_id := none },
                     { sublist_id := 2, sublist_type_id := 3, name := "l",
                       external_id := some "e" }] } := by
  decide

/-! ## Remote directory cache and identifier resolver
Embedding of hydrate_user_identifiers and the Directory cache methods.
There are two Directory variants in the repository: src/baquet/user.py
(lines 768-858) and the refactored src/baquet/directory.py; both are
embedded where the claims cite both. -/

/-- Row of the cache table (CacheSQL in src/baquet/models/directory.py); the
columns the claims depend on: primary key user_id, the name lookup key and
the refresh timestamp. -/
structure CacheSQL where
  user_id : String
  screen_name : String
  last_updated : Int
deriving DecidableEq

/-- A user object returned by the remote service (tweepy); only the fields
the embedding reads. -/
structure RemoteUser where
  id_str : String
  screen_name : String
deriving DecidableEq

/-- An account record as returned to the caller of
hydrate_user_identifiers (serialized CacheSQL or transformed remote user). -/
structure UserRec where
  user_id : String
  screen_name : String
deriving DecidableEq

/-- Serialization of a cache row into a returned record. -/
def rowToRec (r : CacheSQL) : UserRec :=
  { user_id := r.user_id, screen_name := r.screen_name }

/-- _transform_user applied to a remote user: the record is keyed by id_str. -/
def remoteToRec (u : RemoteUser) : UserRec :=
  { user_id := u.id_str, screen_name := u.screen_name }

/-- Python str.lower / SQL lower(), as a map over the character sequence. -/
def lowerStr (s : String) : String := ⟨s.data.map Char.toLower⟩

/-- Directory.get_cache of src/baquet/user.py lines 846-858: one SELECT over
the cache filtered by (user_id IN ids OR lower(screen_name) IN ids) AND
last_updated > expired_time, where expired_time is the cutoff the Directory
computed at construction time (utcnow - cache_expiry). -/
def get_cache (cache : List CacheSQL) (expired_time : Int)
    (ids : List String) : List CacheSQL :=
  cache.filter (fun r =>
    (ids.contains r.user_id || ids.contains (lowerStr r.screen_name)) &&
    decide (expired_time < r.last_updated))

/-- The store queries issued by one call of the user.py Directory.get_cache:
the body is a single query call whose membership predicates bind the whole
identifier list, independent of its length. -/
def get_cache_queries (ids : List String) : List (List String) := [ids]

/-- Directory.get_cache of src/baquet/directory.py lines 210-242: the
identifiers are written to a temp join table and one join query is issued;
there is no last_updated filter, and the screen_name branch compares the
column without lowercasing.  The temp join rows are deleted afterwards; the
cache table itself is never written. -/
def get_cache_dir (cache : List CacheSQL) (user_ids screen_names : List String) :
    List CacheSQL :=
  if user_ids ≠ [] then
    cache.filter (fun r => user_ids.contains r.user_id)
  else
    cache.filter (fun r => screen_names.contains r.screen_name)

/-- Directory.add_cache: merge of the transformed user, keyed on user_id,
with last_updated set to the commit time.  An existing row is overwritten in
place; otherwise the row is appended. -/
def add_cache (cache : List CacheSQL) (u : RemoteUser) (now : Int) : List CacheSQL :=
  if cache.any (fun r => r.user_id == u.id_str) then
    cache.map (fun r =>
      if r.user_id == u.id_str then
        { user_id := u.id_str, screen_name := u.screen_name, last_updated := now }
      else r)
  else cache ++ [{ user_id := u.id_str, screen_name := u.screen_name, last_updated := now }]

/-- The remote lookup batches of hydrate_user_identifiers
(src/baquet/user.py lines 197-207): iterations = ceil(len/100) and the i-th
batch is the slice user_identifiers[i*100 : min((i+1)*100, len)]. -/
def lookupChunks (ids : List String) : List (List String) :=
  (List.range ((ids.length + 99) / 100)).map (fun i =>
    (ids.drop (i * 100)).take
      ((if (i + 1) * 100 > ids.length then ids.length else (i + 1) * 100) - i * 100))

/-- Consecutive slices of size k, in recursive form; used to reason about
lookupChunks and about the sharding the spec describes. -/
def chunksOf (k : Nat) : List α → List (List α)
  | [] => []
  | a :: l => (a :: l).take k :: chunksOf k (l.drop (k - 1))
  termination_by l => l.length
  decreasing_by simp only [List.length_drop, List.length_cons]; omega

theorem chunksOf_join (k : Nat) (hk : 0 < k) :
    ∀ l : List α, (chunksOf k l).flatten = l
  | [] => by simp [chunksOf]
  | a :: l => by
      rw [chunksOf, List.flatten_cons, chunksOf_join k hk (l.drop (k - 1))]
      obtain ⟨k1, rfl⟩ : ∃ k1, k = k1 + 1 := ⟨k - 1, by omega⟩
      rw [List.take_succ_cons]
      simp [List.take_append_drop]
  termination_by l => l.length
  decreasing_by simp only [List.length_drop, List.length_cons]; omega

theorem chunksOf_length_le (k : Nat) (c : List α) :
    ∀ l : List α, c ∈ chunksOf k l → c.length ≤ k
  | [] => by simp [chunksOf]
  | a :: l => by
      rw [chunksOf]
      intro h
      rcases List.mem_cons.mp h with rfl | h
      · exact List.length_take_le k (a :: l)
      · exact chunksOf_length_le k c (l.drop (k - 1)) h
  termination_by l => l.length
  decreasing_by simp only [List.length_drop, List.length_cons]; omega

theorem mem_iff_mem_chunksOf (k : Nat) (hk : 0 < k) (x : α) (l : List α) :
    x ∈ l ↔ ∃ c ∈ chunksOf k l, x ∈ c := by
  conv_lhs => rw [← chunksOf_join k hk l]
  exact List.mem_flatten

/-- Unfolding of the batch loop: the first batch is the first 100 misses and
the remaining batches are the batches of the rest. -/
theorem lookupChunks_ne_nil_eq (l : List String) (hl : l ≠ []) :
    lookupChunks l = l.take 100 :: lookupChunks (l.drop 100) := by
  unfold lookupChunks
  have hn : 0 < l.length := List.length_pos.mpr hl
  have hlen : (l.length + 99) / 100 = ((l.drop 100).length + 99) / 100 + 1 := by
    simp only [List.length_drop]
    omega
  rw [hlen, List.range_succ_eq_map, List.map_cons, List.map_map]
  congr 1
  · simp only [Nat.zero_mul, List.drop_zero, Nat.sub_zero, Nat.zero_add, Nat.one_mul]
    rw [List.take_eq_take]
    split <;> omega
  · congr 1
    funext i
    show (l.drop ((i + 1) * 100)).take _ = ((l.drop 100).drop (i * 100)).take _
    rw [List.drop_drop]
    have harg : 100 + i * 100 = (i + 1) * 100 := by ring
    rw [harg, List.take_eq_take]
    simp only [List.length_drop, Nat.succ_eq_add_one]
    split <;> split <;> omega

theorem lookupChunks_eq_chunksOf : ∀ l : List String, lookupChunks l = chunksOf 100 l
  | [] => by simp [lookupChunks, chunksOf]
  | a :: l => by
      rw [lookupChunks_ne_nil_eq (a :: l) (by simp), chunksOf]
      have hd : (a :: l).drop 100 = l.drop 99 := rfl
      rw [hd, lookupChunks_eq_chunksOf (l.drop 99)]
  termination_by l => l.length
  decreasing_by simp only [List.length_drop, List.length_cons]; omega

/-- The batches are consecutive: concatenated they give back the miss list. -/
theorem lookupChunks_flatten (l : List String) : (lookupChunks l).flatten = l := by
  rw [lookupChunks_eq_chunksOf]
  exact chunksOf_join 100 (by norm_num) l

/-- Every batch has at most 100 identifiers. -/
theorem lookupChunks_size {c : List String} {l : List String}
    (h : c ∈ lookupChunks l) : c.length ≤ 100 := by
  rw [lookupChunks_eq_chunksOf] at h
  exact chunksOf_length_le 100 c l h

/-- The number of batches is ceil(number of misses / 100). -/
theorem lookupChunks_count (l : List String) :
    (lookupChunks l).length = (l.length + 99) / 100 := by
  simp [lookupChunks]

/-- The remote lookup loop of hydrate_user_identifiers: batches are processed
in order, each successful batch immediately upserts every returned user into
the shared cache (Directory.add_cache commits per user), and a raised lookup
propagates unmodified, keeping the cache state already committed.  Returns
the collected remote users (or the propagated failure), the batch calls that
were issued, and the resulting cache state. -/
def hydrateLoop (remote : List String → Except ε (List RemoteUser)) (now : Int) :
    List (List String) → List CacheSQL →
      Except ε (List RemoteUser) × List (List String) × List CacheSQL
  | [], cache => (Except.ok [], [], cache)
  | c :: cs, cache =>
    match remote c with
    | Except.error e => (Except.error e, [c], cache)
    | Except.ok users =>
      let cache1 := users.foldl (fun acc u => add_cache acc u now) cache
      let r := hydrateLoop remote now cs cache1
      (match r.1 with
       | Except.ok rest => Except.ok (users ++ rest)
       | Except.error e => Except.error e,
       c :: r.2.1, r.2.2)

/-- The misses of hydrate_user_identifiers (src/baquet/user.py lines
184-195): input identifiers that match no returned cache row, neither among
the returned user_ids nor among the lowercased returned screen names. -/
def missesOf (cache : List CacheSQL) (expired_time : Int)
    (ids : List String) : List String :=
  let cache_results := get_cache cache expired_time ids
  ids.filter (fun u =>
    !(cache_results.map (fun r => r.user_id)).contains u &&
    !(cache_results.map (fun r => lowerStr r.screen_name)).contains u)

/-- hydrate_user_identifiers (src/baquet/user.py lines 170-218), after input
normalization: when resolving by screen names the source lower-cases the
inputs and then follows the same path as for ids, so the embedding takes the
already normalized identifier list.  Returns the results (or the propagated
remote failure), the remote batch calls issued, and the final cache state. -/
def hydrate_user_identifiers (cache : List CacheSQL) (expired_time now : Int)
    (remote : List String → Except ε (List RemoteUser)) (ids : List String) :
    Except ε (List UserRec) × List (List String) × List CacheSQL :=
  if ids = [] then (Except.ok [], [], cache)
  else
    let cache_results := get_cache cache expired_time ids
    let misses := missesOf cache expired_time ids
    let r :=
      if misses = [] then (Except.ok [], [], cache)
      else hydrateLoop remote now (lookupChunks misses) cache
    (match r.1 with
     | Except.ok remotes =>
        Except.ok (cache_results.map rowToRec ++ remotes.map remoteToRec)
     | Except.error e => Except.error e,
     r.2.1, r.2.2)

/-- add_cache never deletes: every user_id present before the upsert is
present afterwards. -/
theorem add_cache_keeps_ids {cache : List CacheSQL} {id0 : String}
    (h : ∃ x ∈ cache, x.user_id = id0) (u : RemoteUser) (now : Int) :
    ∃ x ∈ add_cache cache u now, x.user_id = id0 := by
  obtain ⟨x, hx, rfl⟩ := h
  unfold add_cache
  split
  · by_cases hk : x.user_id = u.id_str
    · refine ⟨⟨u.id_str, u.screen_name, now⟩, ?_, hk.symm⟩
      simp only [List.mem_map]
      exact ⟨x, hx, by rw [if_pos (by simp [hk])]⟩
    · refine ⟨x, ?_, rfl⟩
      simp only [List.mem_map]
      exact ⟨x, hx, by rw [if_neg (by simp [hk])]⟩
  · exact ⟨x, List.mem_append_left _ hx, rfl⟩

/-- add_cache inserts the merged user. -/
theorem add_cache_mem_self (cache : List CacheSQL) (u : RemoteUser) (now : Int) :
    ∃ x ∈ add_cache cache u now, x.user_id = u.id_str := by
  unfold add_cache
  split
  · next hany =>
    simp only [List.any_eq_true, beq_iff_eq] at hany
    obtain ⟨x, hx, hk⟩ := hany
    refine ⟨⟨u.id_str, u.screen_name, now⟩, ?_, rfl⟩
    simp only [List.mem_map]
    exact ⟨x, hx, by rw [if_pos (by simp [hk])]⟩
  · exact ⟨_, List.mem_append_right _ (List.mem_singleton_self _), rfl⟩

/-- When every remote batch succeeds, the loop issues exactly the given
batches, collects all returned users in order, and folds every returned user
into the cache. -/
theorem hydrateLoop_all_ok {ε : Type} (RF : List String → List RemoteUser) (now : Int) :
    ∀ (cs : List (List String)) (cache : List CacheSQL),
      hydrateLoop (fun c => (Except.ok (RF c) : Except ε (List RemoteUser))) now cs cache =
        (Except.ok ((cs.map RF).flatten), cs,
         ((cs.map RF).flatten).foldl (fun a u => add_cache a u now) cache)
  | [], cache => by simp [hydrateLoop]
  | c :: cs, cache => by
      rw [hydrateLoop]
      simp only [hydrateLoop_all_ok RF now cs]
      simp [List.foldl_append]

/-- An identifier list is matched by the whole-list query exactly when some
900-chunk of it matches. -/
theorem contains_iff_chunk_contains (ids : List String) (x : String) :
    ids.contains x = true ↔ ∃ c ∈ chunksOf 900 ids, c.contains x = true := by
  simp only [List.contains_iff_exists_mem_beq, beq_iff_eq]
  constructor
  · rintro ⟨y, hy, rfl⟩
    obtain ⟨c, hc, hmem⟩ := (mem_iff_mem_chunksOf 900 (by norm_num) x ids).mp hy
    exact ⟨c, hc, x, hmem, rfl⟩
  · rintro ⟨c, hc, y, hy, rfl⟩
    exact ⟨x, (mem_iff_mem_chunksOf 900 (by norm_num) x ids).mpr ⟨c, hc, hy⟩, rfl⟩

/-- C3, counterexample: for 1801 identifiers the user.py Directory.get_cache
issues exactly 1 store query binding the full list in its membership
predicates, not the 3 shard queries the claim requires (no partitioning at
any size exists in either get_cache variant). -/
theorem no_sharding_single_query_for_1801 :
    (get_cache_queries ((List.range 1801).map (fun n => toString n))).length = 1 ∧
    (get_cache_queries ((List.range 1801).map (fun n => toString n))).length ≠ 3 := by
  exact ⟨rfl, by decide⟩

/-- C3, amended: get_cache does not partition the identifier list; it issues
a single store query binding the whole list.  The returned set nevertheless
equals the union the claim describes: a row is returned by the single
unbounded query with the TTL filter iff it is returned by the same query for
some consecutive 900-chunk of the identifiers. -/
theorem get_cache_one_query_equals_chunked_union (cache : List CacheSQL)
    (expired_time : Int) (ids : List String) :
    (get_cache_queries ids).length = 1 ∧
    ∀ r : CacheSQL, r ∈ get_cache cache expired_time ids ↔
      ∃ c ∈ chunksOf 900 ids, r ∈ get_cache cache expired_time c := by
  refine ⟨rfl, fun r => ?_⟩
  unfold get_cache
  simp only [List.mem_filter, Bool.and_eq_true, Bool.or_eq_true, decide_eq_true_eq]
  constructor
  · rintro ⟨hr, hmatch, hfresh⟩
    rcases hmatch with h | h
    · obtain ⟨c, hc, hmem⟩ := (contains_iff_chunk_contains ids r.user_id).mp h
      exact ⟨c, hc, hr, Or.inl hmem, hfresh⟩
    · obtain ⟨c, hc, hmem⟩ := (contains_iff_chunk_contains ids (lowerStr r.screen_name)).mp h
      exact ⟨c, hc, hr, Or.inr hmem, hfresh⟩
  · rintro ⟨c, hc, hr, hmatch, hfresh⟩
    refine ⟨hr, ?_, hfresh⟩
    rcases hmatch with h | h
    · exact Or.inl ((contains_iff_chunk_contains ids r.user_id).mpr ⟨c, hc, h⟩)
    · exact Or.inr ((contains_iff_chunk_contains ids (lowerStr r.screen_name)).mpr ⟨c, hc, h⟩)

/-- C4, counterexample: the directory.py variant of get_cache applies no
staleness filter.  With now = 0 and ttl = 10, an entry with last_updated =
now - ttl - 1 = -11 is stale, yet it is returned. -/
theorem dir_get_cache_returns_stale_entry :
    ({ user_id := "1", screen_name := "a", last_updated := -11 } : CacheSQL).last_updated
        = 0 - 10 - 1 ∧
    get_cache_dir [{ user_id := "1", screen_name := "a", last_updated := -11 }] ["1"] []
      = [{ user_id := "1", screen_name := "a", last_updated := -11 }] := by
  exact ⟨by norm_num, by decide⟩

/-- C4, amended: the user.py variant filters reads against the cutoff
expired_time = (construction-time) now - ttl: an entry one second older than
the cutoff is excluded, an entry one second newer that matches the lookup is
included, and every returned entry is strictly newer than the cutoff.
Neither get issues any write, and add_cache upserts without ever deleting:
every user_id present in the cache stays present.  The directory.py variant
of get applies no staleness filter (see the counterexample). -/
theorem cache_ttl_read_filter_amended (cache : List CacheSQL) (now ttl : Int)
    (ids : List String) (r : CacheSQL) (hr : r ∈ cache) :
    (r.last_updated = now - ttl - 1 → r ∉ get_cache cache (now - ttl) ids) ∧
    (r.last_updated = now - ttl + 1 →
      (ids.contains r.user_id || ids.contains (lowerStr r.screen_name)) = true →
      r ∈ get_cache cache (now - ttl) ids) ∧
    (∀ x ∈ get_cache cache (now - ttl) ids, now - ttl < x.last_updated) ∧
    (∀ (u : RemoteUser) (t : Int) (id0 : String),
      (∃ x ∈ cache, x.user_id = id0) → ∃ x ∈ add_cache cache u t, x.user_id = id0) := by
  refine ⟨?_, ?_, ?_, ?_⟩
  · intro hstale hmem
    have := (List.mem_filter.mp hmem).2
    simp only [Bool.and_eq_true, decide_eq_true_eq] at this
    omega
  · intro hfresh hmatch
    refine List.mem_filter.mpr ⟨hr, ?_⟩
    simp only [Bool.and_eq_true, decide_eq_true_eq]
    exact ⟨hmatch, by omega⟩
  · intro x hx
    have := (List.mem_filter.mp hx).2
    simp only [Bool.and_eq_true, decide_eq_true_eq] at this
    exact this.2
  · intro u t id0 h
    exact add_cache_keeps_ids h u t

/-- C4, witness: a matching entry one second newer than the cutoff is
returned by the user.py get_cache. -/
theorem cache_ttl_read_filter_witness :
    ({ user_id := "1", screen_name := "a", last_updated := 5 } : CacheSQL) ∈
      get_cache [{ user_id := "1", screen_name := "a", last_updated := 5 }]
        ((10 : Int) - 6) ["1"] :=
  (cache_ttl_read_filter_amended
    [{ user_id := "1", screen_name := "a", last_updated := 5 }] 10 6 ["1"]
    { user_id := "1", screen_name := "a", last_updated := 5 }
    (by decide)).2.1 (by decide) (by decide)

theorem lookupChunks_nil : lookupChunks [] = [] := rfl

theorem lookupChunks_singleton (x : String) : lookupChunks [x] = [[x]] := by
  rw [lookupChunks_ne_nil_eq [x] (by simp), List.take_of_length_le (by simp),
    List.drop_eq_nil_of_le (by simp), lookupChunks_nil]

/-- Rows returned by get_cache are cache rows that pass the TTL filter. -/
theorem get_cache_sub {cache : List CacheSQL} {exp : Int} {ids : List String}
    {x : CacheSQL} (h : x ∈ get_cache cache exp ids) :
    x ∈ cache ∧ exp < x.last_updated := by
  have h2 := List.mem_filter.mp h
  refine ⟨h2.1, ?_⟩
  have := h2.2
  simp only [Bool.and_eq_true, decide_eq_true_eq] at this
  exact this.2

/-- C5: resolving [A, B] where A has a fresh cache entry and B matches no
fresh entry issues exactly one remote batch, [[B]], and afterwards both A
and B have entries in the cache; in general (all remote batches succeeding)
the batch calls are exactly the consecutive 100-slices of the misses — the
identifiers matched by no returned cache row — ceil(misses/100) calls of at
most 100 identifiers each, concatenating back to the miss list, and the
final cache is the initial cache with every returned user upserted. -/
theorem resolver_hits_skipped_misses_chunked {ε : Type} (cache : List CacheSQL)
    (exp now : Int) :
    (∀ (RF : List String → List RemoteUser) (ids : List String),
      (hydrate_user_identifiers cache exp now
          (fun c => (Except.ok (RF c) : Except ε (List RemoteUser))) ids).2.1 =
        lookupChunks (missesOf cache exp ids) ∧
      (hydrate_user_identifiers cache exp now
          (fun c => (Except.ok (RF c) : Except ε (List RemoteUser))) ids).2.2 =
        (((lookupChunks (missesOf cache exp ids)).map RF).flatten).foldl
          (fun a u => add_cache a u now) cache ∧
      (lookupChunks (missesOf cache exp ids)).flatten = missesOf cache exp ids ∧
      (∀ c ∈ lookupChunks (missesOf cache exp ids), c.length ≤ 100) ∧
      (lookupChunks (missesOf cache exp ids)).length =
        ((missesOf cache exp ids).length + 99) / 100) ∧
    (∀ (A B : String) (rA : CacheSQL) (uB : RemoteUser)
        (remote : List String → Except ε (List RemoteUser)),
      rA ∈ cache → rA.user_id = A → exp < rA.last_updated →
      (∀ x ∈ cache, exp < x.last_updated →
        x.user_id ≠ B ∧ lowerStr x.screen_name ≠ B) →
      remote [B] = Except.ok [uB] → uB.id_str = B →
      (hydrate_user_identifiers cache exp now remote [A, B]).2.1 = [[B]] ∧
      (∃ x ∈ (hydrate_user_identifiers cache exp now remote [A, B]).2.2,
        x.user_id = A) ∧
      (∃ x ∈ (hydrate_user_identifiers cache exp now remote [A, B]).2.2,
        x.user_id = B)) := by
  constructor
  · intro RF ids
    refine ⟨?_, ?_, lookupChunks_flatten _, fun c hc => lookupChunks_size hc,
      lookupChunks_count _⟩ <;>
    · by_cases hids : ids = []
      · subst hids
        simp [hydrate_user_identifiers, missesOf, get_cache, lookupChunks_nil]
      · by_cases hm : missesOf cache exp ids = []
        · simp [hydrate_user_identifiers, if_neg hids, hm, lookupChunks_nil]
        · simp only [hydrate_user_identifiers, if_neg hids, if_neg hm,
            hydrateLoop_all_ok]
  · intro A B rA uB remote hrA hrAid hfreshA hB hrem hid
    have hres : rA ∈ get_cache cache exp [A, B] := by
      refine List.mem_filter.mpr ⟨hrA, ?_⟩
      simp only [Bool.and_eq_true, Bool.or_eq_true, decide_eq_true_eq]
      refine ⟨Or.inl ?_, hfreshA⟩
      simp [hrAid]
    have hcA : ((get_cache cache exp [A, B]).map (fun r => r.user_id)).contains A = true := by
      simp only [List.contains_iff_exists_mem_beq, beq_iff_eq]
      exact ⟨A, List.mem_map.mpr ⟨rA, hres, hrAid⟩, rfl⟩
    have hnoB1 : ((get_cache cache exp [A, B]).map (fun r => r.user_id)).contains B = false := by
      refine Bool.eq_false_iff.mpr ?_
      intro hc
      simp only [List.contains_iff_exists_mem_beq, beq_iff_eq] at hc
      obtain ⟨y, hy, rfl⟩ := hc
      obtain ⟨x, hx, hxid⟩ := List.mem_map.mp hy
      obtain ⟨hxc, hxf⟩ := get_cache_sub hx
      exact (hB x hxc hxf).1 hxid
    have hnoB2 : ((get_cache cache exp [A, B]).map
        (fun r => lowerStr r.screen_name)).contains B = false := by
      refine Bool.eq_false_iff.mpr ?_
      intro hc
      simp only [List.contains_iff_exists_mem_beq, beq_iff_eq] at hc
      obtain ⟨y, hy, rfl⟩ := hc
      obtain ⟨x, hx, hxid⟩ := List.mem_map.mp hy
      obtain ⟨hxc, hxf⟩ := get_cache_sub hx
      exact (hB x hxc hxf).2 hxid
    have hmiss : missesOf cache exp [A, B] = [B] := by
      unfold missesOf
      simp only [List.filter_cons, List.filter_nil, hcA, hnoB1, hnoB2,
        Bool.not_true, Bool.not_false, Bool.false_and, Bool.true_and,
        if_false, if_true]
      simp
    have hloop : hydrateLoop remote now [[B]] cache =
        (Except.ok [uB], [[B]], add_cache cache uB now) := by
      simp [hydrateLoop, hrem]
    simp only [hydrate_user_identifiers,
      if_neg (show ([A, B] : List String) ≠ [] by simp), hmiss,
      if_neg (show ([B] : List String) ≠ [] by simp),
      lookupChunks_singleton, hloop]
    refine ⟨trivial, ?_, ?_⟩
    · exact add_cache_keeps_ids ⟨rA, hrA, hrAid⟩ uB now
    · exact hid ▸ add_cache_mem_self cache uB now

/-- C5, witness: a two-identifier resolve with one fresh hit and one miss,
evaluated at concrete inputs. -/
theorem resolver_batches_witness :
    ((hydrate_user_identifiers
        [{ user_id := "1", screen_name := "a", last_updated := 5 }] 0 9
        (fun c => if c = [("2" : String)] then
            (Except.ok [{ id_str := "2", screen_name := "b" }] :
              Except Unit (List RemoteUser))
          else Except.ok []) ["1", "2"]).2.1 = [["2"]]) ∧
    (∃ x ∈ (hydrate_user_identifiers
        [{ user_id := "1", screen_name := "a", last_updated := 5 }] 0 9
        (fun c => if c = [("2" : String)] then
            (Except.ok [{ id_str := "2", screen_name := "b" }] :
              Except Unit (List RemoteUser))
          else Except.ok []) ["1", "2"]).2.2, x.user_id = "1") ∧
    (∃ x ∈ (hydrate_user_identifiers
        [{ user_id := "1", screen_name := "a", last_updated := 5 }] 0 9
        (fun c => if c = [("2" : String)] then
            (Except.ok [{ id_str := "2", screen_name := "b" }] :
              Except Unit (List RemoteUser))
          else Except.ok []) ["1", "2"]).2.2, x.user_id = "2") :=
  (resolver_hits_skipped_misses_chunked
      [{ user_id := "1", screen_name := "a", last_updated := 5 }] 0 9).2
    "1" "2" { user_id := "1", screen_name := "a", last_updated := 5 }
    { id_str := "2", screen_name := "b" } _
    (by decide) (by decide) (by decide) (by decide) rfl rfl

/-- C7, counterexample: the cache holds a fresh row with user_id 1 (name x)
and a fresh row with user_id 2 whose screen name is the string 1.  Resolving
the single identifier 1 returns TWO records — the identifier matches one row
by id and the other row by name — although there is exactly one distinct
input identifier, so the result is not one record per distinct resolvable
identifier. -/
theorem one_identifier_two_records :
    (hydrate_user_identifiers
      [{ user_id := "1", screen_name := "x", last_updated := 5 },
       { user_id := "2", screen_name := "1", last_updated := 5 }] 0 9
      (fun _ => (Except.ok [] : Except Unit (List RemoteUser))) ["1"]).1 =
    Except.ok [{ user_id := "1", screen_name := "x" },
               { user_id := "2", screen_name := "1" }] := by
  rfl

/-- C7, amended: with every remote batch succeeding, resolve never fails: it
returns ok with the serialized cache hits followed by the transformed remote
results.  Every input identifier is either matched by a returned fresh cache
row (by user_id or lowercased screen name) or forwarded to the remote lookup
as a miss; a resolvable identifier yields at least one record — not exactly
one, since an identifier can match several rows and a row can serve several
identifiers — and a miss that the remote service does not return is silently
omitted: no record carries it as user_id, and no error is raised. -/
theorem resolver_returns_hits_and_misses {ε : Type} (cache : List CacheSQL)
    (exp now : Int) (RF : List String → List RemoteUser) (ids : List String) :
    (hydrate_user_identifiers cache exp now
        (fun c => (Except.ok (RF c) : Except ε (List RemoteUser))) ids).1 =
      Except.ok ((get_cache cache exp ids).map rowToRec ++
        (((lookupChunks (missesOf cache exp ids)).map RF).flatten).map remoteToRec) ∧
    (∀ u ∈ ids, (∃ r ∈ get_cache cache exp ids,
        r.user_id = u ∨ lowerStr r.screen_name = u) ∨ u ∈ missesOf cache exp ids) ∧
    (∀ u ∈ ids,
      ((∃ r ∈ get_cache cache exp ids, r.user_id = u ∨ lowerStr r.screen_name = u) →
        ∃ rec ∈ (get_cache cache exp ids).map rowToRec ++
          (((lookupChunks (missesOf cache exp ids)).map RF).flatten).map remoteToRec,
          rec.user_id = u ∨ lowerStr rec.screen_name = u) ∧
      ((∃ c ∈ lookupChunks (missesOf cache exp ids), ∃ v ∈ RF c, v.id_str = u) →
        ∃ rec ∈ (get_cache cache exp ids).map rowToRec ++
          (((lookupChunks (missesOf cache exp ids)).map RF).flatten).map remoteToRec,
          rec.user_id = u)) ∧
    (∀ u ∈ missesOf cache exp ids,
      (∀ c ∈ lookupChunks (missesOf cache exp ids), ∀ v ∈ RF c, v.id_str ≠ u) →
      ∀ rec ∈ (get_cache cache exp ids).map rowToRec ++
        (((lookupChunks (missesOf cache exp ids)).map RF).flatten).map remoteToRec,
        rec.user_id ≠ u) := by
  refine ⟨?_, ?_, ?_, ?_⟩
  · by_cases hids : ids = []
    · subst hids
      simp [hydrate_user_identifiers, missesOf, get_cache, lookupChunks_nil]
    · by_cases hm : missesOf cache exp ids = []
      · simp [hydrate_user_identifiers, if_neg hids, hm, lookupChunks_nil]
      · simp only [hydrate_user_identifiers, if_neg hids, if_neg hm,
          hydrateLoop_all_ok]
  · intro u hu
    by_cases hmiss : u ∈ missesOf cache exp ids
    · exact Or.inr hmiss
    · left
      have h2 : ¬ (!((get_cache cache exp ids).map (fun r => r.user_id)).contains u &&
          !((get_cache cache exp ids).map (fun r => lowerStr r.screen_name)).contains u)
            = true := by
        intro hp
        exact hmiss (List.mem_filter.mpr ⟨hu, hp⟩)
      have h3 : ((get_cache cache exp ids).map (fun r => r.user_id)).contains u = true ∨
          ((get_cache cache exp ids).map (fun r => lowerStr r.screen_name)).contains u
            = true := by
        by_cases hc1 : ((get_cache cache exp ids).map
            (fun r => r.user_id)).contains u = true
        · exact Or.inl hc1
        · by_cases hc2 : ((get_cache cache exp ids).map
              (fun r => lowerStr r.screen_name)).contains u = true
          · exact Or.inr hc2
          · exact absurd (by
              rw [Bool.eq_false_iff.mpr hc1, Bool.eq_false_iff.mpr hc2]; rfl) h2
      rcases h3 with h | h
      · simp only [List.contains_iff_exists_mem_beq, beq_iff_eq] at h
        obtain ⟨y, hy, rfl⟩ := h
        obtain ⟨r, hr, hru⟩ := List.mem_map.mp hy
        exact ⟨r, hr, Or.inl hru⟩
      · simp only [List.contains_iff_exists_mem_beq, beq_iff_eq] at h
        obtain ⟨y, hy, rfl⟩ := h
        obtain ⟨r, hr, hru⟩ := List.mem_map.mp hy
        exact ⟨r, hr, Or.inr hru⟩
  · intro u _
    constructor
    · rintro ⟨r, hr, hmatch⟩
      exact ⟨rowToRec r, List.mem_append_left _ (List.mem_map.mpr ⟨r, hr, rfl⟩), hmatch⟩
    · rintro ⟨c, hc, v, hv, rfl⟩
      refine ⟨remoteToRec v, List.mem_append_right _ (List.mem_map.mpr ⟨v, ?_, rfl⟩), rfl⟩
      exact List.mem_flatten.mpr ⟨RF c, List.mem_map.mpr ⟨c, hc, rfl⟩, hv⟩
  · intro u hu hnorem rec hrec
    have hp := (List.mem_filter.mp hu).2
    simp only [Bool.and_eq_true, Bool.not_eq_true'] at hp
    rcases List.mem_append.mp hrec with h | h
    · obtain ⟨r, hr, rfl⟩ := List.mem_map.mp h
      intro heq
      have : ((get_cache cache exp ids).map (fun r => r.user_id)).contains u = true := by
        simp only [List.contains_iff_exists_mem_beq, beq_iff_eq]
        exact ⟨u, by rw [← heq]; exact List.mem_map.mpr ⟨r, hr, rfl⟩, rfl⟩
      rw [hp.1] at this
      exact Bool.false_ne_true this
    · obtain ⟨v, hv, rfl⟩ := List.mem_map.mp h
      obtain ⟨us, hus, hvus⟩ := List.mem_flatten.mp hv
      obtain ⟨c, hc, rfl⟩ := List.mem_map.mp hus
      exact hnorem c hc v hvus

/-- C7, witness for the amended theorem: identifier 1 is a cache hit,
identifier 9 matches nothing locally or remotely; the result is ok (no
error) and the hit record does not carry user_id 9. -/
theorem resolver_hits_and_misses_witness :
    (hydrate_user_identifiers
        [{ user_id := "1", screen_name := "a", last_updated := 5 }] 0 9
        (fun _ => (Except.ok [] : Except Unit (List RemoteUser))) ["1", "9"]).1 =
      Except.ok ((get_cache [{ user_id := "1", screen_name := "a", last_updated := 5 }]
          0 ["1", "9"]).map rowToRec ++
        (((lookupChunks (missesOf
            [{ user_id := "1", screen_name := "a", last_updated := 5 }]
            0 ["1", "9"])).map (fun _ => ([] : List RemoteUser))).flatten).map
          remoteToRec) ∧
    (rowToRec { user_id := "1", screen_name := "a", last_updated := 5 }).user_id ≠ "9" :=
  ⟨(@resolver_returns_hits_and_misses Unit
      [{ user_id := "1", screen_name := "a", last_updated := 5 }] 0 9
      (fun _ => ([] : List RemoteUser)) ["1", "9"]).1,
   (@resolver_returns_hits_and_misses Unit
      [{ user_id := "1", screen_name := "a", last_updated := 5 }] 0 9
      (fun _ => ([] : List RemoteUser)) ["1", "9"]).2.2.2 "9" (by decide)
      (by decide) _ (by decide)⟩

/-- A failing batch after a prefix of successful batches: the loop issues
exactly the successful batches and the failing one, returns the error
unmodified, and the cache state is the fold of the earlier batches only. -/
theorem hydrateLoop_fail {ε : Type} (remote : List String → Except ε (List RemoteUser))
    (now : Int) (RF : List String → List RemoteUser) (e : ε) :
    ∀ (cs1 : List (List String)) (cf : List String) (cs2 : List (List String))
      (cache : List CacheSQL),
      (∀ c ∈ cs1, remote c = Except.ok (RF c)) → remote cf = Except.error e →
      hydrateLoop remote now (cs1 ++ cf :: cs2) cache =
        (Except.error e, cs1 ++ [cf],
         ((cs1.map RF).flatten).foldl (fun a u => add_cache a u now) cache)
  | [], cf, cs2, cache => by
      intro _ hf
      simp [hydrateLoop, hf]
  | c :: cs1, cf, cs2, cache => by
      intro hok hf
      rw [List.cons_append, hydrateLoop, hok c (List.mem_cons_self c cs1)]
      simp only
      rw [hydrateLoop_fail remote now RF e cs1 cf cs2 _
        (fun c1 hc1 => hok c1 (List.mem_cons_of_mem c hc1)) hf]
      simp [List.foldl_append]

/-- Folding upserts never deletes a cached user_id. -/
theorem foldl_add_cache_keeps_ids (now : Int) :
    ∀ (us : List RemoteUser) (cache : List CacheSQL) (id0 : String),
      (∃ x ∈ cache, x.user_id = id0) →
      ∃ x ∈ us.foldl (fun a u => add_cache a u now) cache, x.user_id = id0
  | [], _cache, _id0 => fun h => h
  | u :: us, cache, id0 => fun h =>
      foldl_add_cache_keeps_ids now us (add_cache cache u now) id0
        (add_cache_keeps_ids h u now)

/-- Every user folded into the cache is present afterwards. -/
theorem foldl_add_cache_mem (now : Int) :
    ∀ (us : List RemoteUser) (v : RemoteUser) (cache : List CacheSQL), v ∈ us →
      ∃ x ∈ us.foldl (fun a u => add_cache a u now) cache, x.user_id = v.id_str
  | [], v, cache => fun hv => absurd hv (List.not_mem_nil v)
  | u :: us, v, cache => fun hv => by
      rcases List.mem_cons.mp hv with rfl | hv2
      · exact foldl_add_cache_keeps_ids now us (add_cache cache v now) v.id_str
          (add_cache_mem_self cache v now)
      · exact foldl_add_cache_mem now us v (add_cache cache u now) hv2

/-- C8: when the batches split as cs1 ++ [cf] ++ cs2 with every batch of cs1
succeeding and cf raising, the failure propagates to the caller unmodified,
exactly the batches cs1 and cf were issued (cf once, nothing after it — no
local retry), and the final cache is the initial cache with the users of the
completed earlier batches upserted: every user_id cached before the call is
still cached, and every account returned by a completed batch is cached. -/
theorem remote_failure_propagates {ε : Type} (cache : List CacheSQL)
    (exp now : Int) (remote : List String → Except ε (List RemoteUser))
    (ids : List String) (cs1 cs2 : List (List String)) (cf : List String)
    (e : ε) (RF : List String → List RemoteUser)
    (hids : ids ≠ [])
    (hsplit : lookupChunks (missesOf cache exp ids) = cs1 ++ cf :: cs2)
    (hok : ∀ c ∈ cs1, remote c = Except.ok (RF c))
    (hfail : remote cf = Except.error e) :
    (hydrate_user_identifiers cache exp now remote ids).1 = Except.error e ∧
    (hydrate_user_identifiers cache exp now remote ids).2.1 = cs1 ++ [cf] ∧
    (hydrate_user_identifiers cache exp now remote ids).2.2 =
      ((cs1.map RF).flatten).foldl (fun a u => add_cache a u now) cache ∧
    (∀ id0 : String, (∃ x ∈ cache, x.user_id = id0) →
      ∃ x ∈ (hydrate_user_identifiers cache exp now remote ids).2.2,
        x.user_id = id0) ∧
    (∀ c ∈ cs1, ∀ v ∈ RF c,
      ∃ x ∈ (hydrate_user_identifiers cache exp now remote ids).2.2,
        x.user_id = v.id_str) := by
  have hm : missesOf cache exp ids ≠ [] := by
    intro h
    rw [h, lookupChunks_nil] at hsplit
    exact List.cons_ne_nil cf cs2 (List.append_eq_nil.mp hsplit.symm).2
  have hmain : hydrate_user_identifiers cache exp now remote ids =
      (Except.error e, cs1 ++ [cf],
       ((cs1.map RF).flatten).foldl (fun a u => add_cache a u now) cache) := by
    simp only [hydrate_user_identifiers, if_neg hids, if_neg hm, hsplit,
      hydrateLoop_fail remote now RF e cs1 cf cs2 cache hok hfail]
  refine ⟨by rw [hmain], by rw [hmain], by rw [hmain], ?_, ?_⟩
  · intro id0 h
    rw [hmain]
    exact foldl_add_cache_keeps_ids now _ cache id0 h
  · intro c hc v hv
    rw [hmain]
    exact foldl_add_cache_mem now _ v cache
      (List.mem_flatten.mpr ⟨RF c, List.mem_map.mpr ⟨c, hc, rfl⟩, hv⟩)

/-- C8, witness: the single batch fails; the error propagates and the cache
hit for identifier 1 is still cached. -/
theorem remote_failure_propagates_witness :
    (hydrate_user_identifiers
        [{ user_id := "1", screen_name := "a", last_updated := 5 }] 0 9
        (fun _ => (Except.error 7 : Except Nat (List RemoteUser)))
        ["1", "2"]).1 = Except.error 7 ∧
    (hydrate_user_identifiers
        [{ user_id := "1", screen_name := "a", last_updated := 5 }] 0 9
        (fun _ => (Except.error 7 : Except Nat (List RemoteUser)))
        ["1", "2"]).2.1 = [] ++ [["2"]] ∧
    (hydrate_user_identifiers
        [{ user_id := "1", screen_name := "a", last_updated := 5 }] 0 9
        (fun _ => (Except.error 7 : Except Nat (List RemoteUser)))
        ["1", "2"]).2.2 =
      ((([] : List (List String)).map (fun _ => ([] : List RemoteUser))).flatten).foldl
        (fun a u => add_cache a u 9)
        [{ user_id := "1", screen_name := "a", last_updated := 5 }] ∧
    (∀ id0 : String,
      (∃ x ∈ [({ user_id := "1", screen_name := "a", last_updated := 5 } : CacheSQL)],
        x.user_id = id0) →
      ∃ x ∈ (hydrate_user_identifiers
          [{ user_id := "1", screen_name := "a", last_updated := 5 }] 0 9
          (fun _ => (Except.error 7 : Except Nat (List RemoteUser)))
          ["1", "2"]).2.2, x.user_id = id0) ∧
    (∀ c ∈ ([] : List (List String)), ∀ v ∈ (fun _ => ([] : List RemoteUser)) c,
      ∃ x ∈ (hydrate_user_identifiers
          [{ user_id := "1", screen_name := "a", last_updated := 5 }] 0 9
          (fun _ => (Except.error 7 : Except Nat (List RemoteUser)))
          ["1", "2"]).2.2, x.user_id = v.id_str) :=
  remote_failure_propagates
    [{ user_id := "1", screen_name := "a", last_updated := 5 }] 0 9
    (fun _ => (Except.error 7 : Except Nat (List RemoteUser))) ["1", "2"]
    [] [] ["2"] 7 (fun _ => []) (by decide) (by decide)
    (by intro c hc; exact absurd hc (List.not_mem_nil c)) rfl

/-! ## Directory scan (src/baquet/user.py Directory.scan_and_update_directory) -/

/-- A Python value as it appears in the two sets compared by the user.py
variant of scan_and_update_directory: the on-disk file names are parsed with
int(), the directory rows yield str user_ids, and Python equality never
identifies an int with a str. -/
inductive PyVal where
  | pint (n : Nat)
  | pstr (s : String)
deriving DecidableEq

/-- Row of the directory table (DirectorySQL in
src/baquet/models/directory.py); user_id is a String column. -/
structure DirectorySQL where
  user_id : String
  last_updated : Int
deriving DecidableEq

/-- merge of a transformed hydrated account into the directory, keyed by the
string user_id taken from id_str, with last_updated set to the commit time. -/
def mergeDirectory (dir : List DirectorySQL) (u : RemoteUser) (now : Int) :
    List DirectorySQL :=
  if dir.any (fun r => r.user_id == u.id_str) then
    dir.map (fun r =>
      if r.user_id == u.id_str then { user_id := u.id_str, last_updated := now }
      else r)
  else dir ++ [{ user_id := u.id_str, last_updated := now }]

/-- Directory.scan_and_update_directory of src/baquet/user.py lines 799-824.
users_in_path holds ints — int(fn.split(".")[0]) — while users_in_directory
holds the str user_ids of the rows with last_updated newer than the
expired_time cutoff; both set differences are taken under Python equality,
which never equates an int with a str.  The identifiers to add go through
hydrate_user_identifiers and a field transform (passed here as the resolver
collaborator, returning account records), each record is merged, and finally
every row whose user_id is in the delete set is bulk deleted. -/
def scan_and_update_directory (filesOnDisk : List Nat) (dir : List DirectorySQL)
    (expired_time now : Int) (resolve : List PyVal → List RemoteUser) :
    List DirectorySQL :=
  let users_in_path : List PyVal := filesOnDisk.map PyVal.pint
  let users_in_directory : List PyVal :=
    (dir.filter (fun r => decide (expired_time < r.last_updated))).map
      (fun r => PyVal.pstr r.user_id)
  let add := users_in_path.filter (fun v => !users_in_directory.contains v)
  let added := resolve add
  let dir1 := added.foldl (fun d u => mergeDirectory d u now) dir
  let del := users_in_directory.filter (fun v => !users_in_path.contains v)
  dir1.filter (fun r => !del.contains (PyVal.pstr r.user_id))

/-- C9: evaluation of the user.py scan at the failing input.  The store of
account 5 exists on disk (file 5.db) and the directory row for user 5 is
fresh, so per the claim the scan should neither need to re-add it nor delete
it.  Because users_in_path is a set of ints and users_in_directory a set of
strs, the add diff re-adds every on-disk account and the delete diff
contains every fresh directory row — including user 5, whose row is deleted
(whatever the resolver returns) even though its per-account store is on
disk, leaving the directory empty. -/
theorem scan_deletes_fresh_on_disk_entry :
    (∀ resolve : List PyVal → List RemoteUser,
      ∀ r ∈ scan_and_update_directory [5]
        [{ user_id := "5", last_updated := 10 }] 0 20 resolve,
        r.user_id ≠ "5") ∧
    scan_and_update_directory [5] [{ user_id := "5", last_updated := 10 }] 0 20
      (fun _ => [{ id_str := "5", screen_name := "five" }]) = [] := by
  constructor
  · intro resolve r hr
    simp only [scan_and_update_directory] at hr
    have h2 := (List.mem_filter.mp hr).2
    intro heq
    rw [heq] at h2
    exact absurd h2 (by decide)
  · decide

end Baquet
